import Mathlib

/-!
Verification development for the `markov-root/scripts` content-extraction
repository (`src/scrapers/*.py`).

The Python sources are shallowly embedded over `List Char`:

* regex-based string transforms (`clean_title`, `parse_date`, the
  `TextCleaner` pipeline, `clean_content`) become executable Lean functions
  that reproduce Python `re` semantics for the concrete patterns appearing
  in the source (leftmost match, greedy quantifiers with backtracking,
  `$` matching at end of string or before a final newline, `.` not
  matching a newline);
* character classes model Python's `re` over ASCII text: `\w` is
  `[A-Za-z0-9_]`, `\s` is space/tab/newline/carriage-return/vertical-tab/
  form-feed;
* code that raises exceptions is embedded with `Except`; network and
  parser collaborators (`requests`, `BeautifulSoup`, `arxiv`, `pdfplumber`)
  are oracles passed as function arguments;
* the JSON stores are embedded as association lists with Python-`dict`
  semantics (update in place keeps the position of the key, new keys are
  appended).
-/

/-! ## Character classes (ASCII model of Python `re` classes) -/

/-- Python `\s` over ASCII: space, tab, newline, carriage return,
vertical tab, form feed.  `str.strip()` strips the same set. -/
def isSpaceCh (c : Char) : Bool :=
  c = ' ' || c = '\t' || c = '\n' || c = '\r' || c = '\x0b' || c = '\x0c'

/-- Python `\w` over ASCII: `[A-Za-z0-9_]`. -/
def isWordCh (c : Char) : Bool :=
  c.isAlphanum || c = '_'

/-- The character class `[\w\s,]` used by the `by <authors>` patterns. -/
def isWordish (c : Char) : Bool :=
  isWordCh c || isSpaceCh c || c = ','

/-- Python `str.strip()`: remove leading and trailing whitespace. -/
def pyStrip (l : List Char) : List Char :=
  ((l.dropWhile isSpaceCh).reverse.dropWhile isSpaceCh).reverse

/-- Python `pat in s` (substring containment). -/
def hasSub (pat : List Char) : List Char → Bool
  | [] => pat.isEmpty
  | c :: cs => pat.isPrefixOf (c :: cs) || hasSub pat cs

/-! ## Matcher combinators for the concrete regexes

A "continuation matcher" `k : List Char → Bool` decides whether the rest
of a pattern matches a suffix of the subject (the suffix shares the end
of the subject string, so `$` needs no extra position data). -/

/-- `p*` then continuation `k`, with full backtracking. -/
def starK (p : Char → Bool) (k : List Char → Bool) : List Char → Bool
  | [] => k []
  | c :: cs => k (c :: cs) || (p c && starK p k cs)

/-- `p+` then continuation `k`. -/
def plusK (p : Char → Bool) (k : List Char → Bool) : List Char → Bool
  | [] => false
  | c :: cs => p c && starK p k cs

/-- Literal word `w` then continuation `k`. -/
def litK : List Char → (List Char → Bool) → List Char → Bool
  | [], k, l => k l
  | _ :: _, _, [] => false
  | a :: ws, k, c :: cs => (a == c) && litK ws k cs

/-- Python `$` (no `re.MULTILINE`): end of string, or just before a
newline that ends the string. -/
def dollarK : List Char → Bool
  | [] => true
  | [ '\n'] => true
  | _ => false

/-- `c` is not a newline (what `.` may match). -/
def notNL (c : Char) : Bool := c != '\n'

/-- `.*$`. -/
def dotStarDollar : List Char → Bool :=
  starK notNL dollarK

/-- `p{1,2}` then continuation `k`. -/
def rep1or2 (p : Char → Bool) (k : List Char → Bool) : List Char → Bool
  | [] => false
  | [c] => p c && k []
  | c :: d :: cs => p c && ((p d && k cs) || k (d :: cs))

/-- `(?:st|nd|rd|th)?` then continuation `k`. -/
def ordOpt (k : List Char → Bool) (l : List Char) : Bool :=
  litK [ 's', 't'] k l || litK [ 'n', 'd'] k l || litK [ 'r', 'd'] k l ||
    litK [ 't', 'h'] k l || k l

/-- `[A-Z][a-z]+` then continuation `k`. -/
def capWordK (k : List Char → Bool) : List Char → Bool
  | [] => false
  | c :: cs => c.isUpper && plusK Char.isLower k cs

/-- `p{4}` then continuation `k`. -/
def rep4 (p : Char → Bool) (k : List Char → Bool) : List Char → Bool
  | a :: b :: c :: d :: rest => p a && p b && p c && p d && k rest
  | _ => false

/-! ## `ArticleExtractor.clean_title` (alignment_forum_extract.py 13-21)

Three `re.sub` rules applied in order, then `str.strip()`:
1. `by\s+[\w\s,]+\d{1,2}(?:st|nd|rd|th)?\s+[A-Z][a-z]+\s+\d{4}.*$` -> ``
2. `by\s+[\w\s,]+$` -> ``
3. `\d+\s*min read\d*$` -> ``
Each pattern ends at `$`, so each has at most one match; `re.sub`
deletes the leftmost one. -/

/-- Does rule 1's pattern match at the start of this suffix? -/
def match1 : List Char → Bool :=
  litK [ 'b', 'y']
    (plusK isSpaceCh
      (plusK isWordish
        (rep1or2 Char.isDigit
          (ordOpt
            (plusK isSpaceCh
              (capWordK
                (plusK isSpaceCh
                  (rep4 Char.isDigit dotStarDollar))))))))

/-- `re.sub` for rule 1: delete from the leftmost match start to `$`
(a trailing newline, if the match ended just before one, survives). -/
def sub1 : List Char → List Char
  | [] => []
  | c :: cs =>
    if match1 (c :: cs) then
      if (c :: cs).getLast? = some '\n' then [ '\n'] else []
    else c :: sub1 cs

/-- Does rule 2's pattern `by\s+[\w\s,]+$` match at the start of this
suffix?  Since `\s ⊆ [\w\s,]` and a trailing newline is itself in
`[\w\s,]`, the pattern matches exactly when after `by` come at least two
characters, the first is whitespace, and everything to the end of the
string lies in `[\w\s,]`. -/
def match2 : List Char → Bool
  | b :: y :: c :: d :: rest =>
    (b == 'b') && (y == 'y') && isSpaceCh c && isWordish d && rest.all isWordish
  | _ => false

/-- `re.sub` for rule 2 (the greedy match always reaches the very end). -/
def sub2 : List Char → List Char
  | [] => []
  | c :: cs => if match2 (c :: cs) then [] else c :: sub2 cs

/-- The literal `min read` of rule 3. -/
def minread : List Char := [ 'm', 'i', 'n', ' ', 'r', 'e', 'a', 'd']

/-- `\d*$`: all digits to the end, or all digits followed by one final
newline. -/
def allDigitsDollar (l : List Char) : Bool :=
  l.all Char.isDigit || ((l.getLast? == some '\n') && l.dropLast.all Char.isDigit)

/-- Does rule 3's pattern `\d+\s*min read\d*$` match at the start of this
suffix?  `\d+` and `\s*` are forced to their maximal runs because the
following literal starts with `m`. -/
def match3 (l : List Char) : Bool :=
  let ds := l.takeWhile Char.isDigit
  let r1 := l.dropWhile Char.isDigit
  let r2 := r1.dropWhile isSpaceCh
  !ds.isEmpty && minread.isPrefixOf r2 && allDigitsDollar (r2.drop 8)

/-- `re.sub` for rule 3. -/
def sub3 : List Char → List Char
  | [] => []
  | c :: cs =>
    if match3 (c :: cs) then
      if (c :: cs).getLast? = some '\n' then [ '\n'] else []
    else c :: sub3 cs

/-- `ArticleExtractor.clean_title`. -/
def clean_title (l : List Char) : List Char :=
  pyStrip (sub3 (sub2 (sub1 l)))

example : clean_title (("My Post by Jane Doe 22nd Jan 2024").toList) = ("My Post").toList := by decide

example : clean_title (("Title 3 min read 4 min read").toList) = ("Title 3 min read").toList := by decide

example : clean_title (clean_title (("Title 3 min read 4 min read").toList)) = ("Title").toList := by decide

/-! ## `MetadataExtractor.parse_date` (alignment_forum_meta.py 22-30)

`re.search(r'(\d{1,2})(?:st|nd|rd|th)?\s+([A-Za-z]+)\s+(\d{4})', s)`,
then `datetime.strptime(month[:3], '%b').month` (raises `ValueError` if
the three-letter prefix is not a month abbreviation), then
`f"{year}-{month_num:02d}-{int(day):02d}"`. -/

/-- Tail `\s+([A-Za-z]+)\s+(\d{4})` of the date pattern: the three
character classes are pairwise disjoint, so each run is forced maximal.
Returns the captured (month, year). -/
def dmyTail (l : List Char) : Option (List Char × List Char) :=
  let sp := l.takeWhile isSpaceCh
  if sp.isEmpty then none else
  let r2 := l.dropWhile isSpaceCh
  let mword := r2.takeWhile Char.isAlpha
  if mword.isEmpty then none else
  let r3 := r2.dropWhile Char.isAlpha
  let sp2 := r3.takeWhile isSpaceCh
  if sp2.isEmpty then none else
  match r3.dropWhile isSpaceCh with
  | a :: b :: c :: d :: _ =>
    if a.isDigit && b.isDigit && c.isDigit && d.isDigit then some (mword, [a, b, c, d])
    else none
  | _ => none

/-- Is this two-character sequence one of the ordinal suffixes
`st|nd|rd|th`? -/
def isOrdinalPair (x y : Char) : Bool :=
  (x == 's' && y == 't') || (x == 'n' && y == 'd') || (x == 'r' && y == 'd') ||
    (x == 't' && y == 'h')

/-- After the day digits: optional ordinal suffix (tried first, as the
regex alternation is tried before the empty branch), then the tail. -/
def dmyAfterDay (day l : List Char) : Option (List Char × List Char × List Char) :=
  match l with
  | x :: y :: r =>
    if isOrdinalPair x y then
      match dmyTail r with
      | some (m, yr) => some (day, m, yr)
      | none => (dmyTail l).map (fun p => (day, p.1, p.2))
    else (dmyTail l).map (fun p => (day, p.1, p.2))
  | _ => (dmyTail l).map (fun p => (day, p.1, p.2))

/-- Match of the whole date pattern at the start of `l`; `\d{1,2}` is
greedy, so two day digits are tried before one. -/
def dmyAt (l : List Char) : Option (List Char × List Char × List Char) :=
  match l with
  | a :: rest =>
    if a.isDigit then
      match rest with
      | b :: r2 =>
        if b.isDigit then
          match dmyAfterDay [a, b] r2 with
          | some t => some t
          | none => dmyAfterDay [a] rest
        else dmyAfterDay [a] rest
      | [] => dmyAfterDay [a] []
    else none
  | [] => none

/-- `re.search`: leftmost position where the date pattern matches. -/
def findDMY : List Char → Option (List Char × List Char × List Char)
  | [] => none
  | c :: cs =>
    match dmyAt (c :: cs) with
    | some t => some t
    | none => findDMY cs

/-- The `%b` month abbreviations (`strptime` is case-insensitive). -/
def monthAbbrevs : List (List Char × Nat) :=
  [ ([ 'j', 'a', 'n'], 1), ([ 'f', 'e', 'b'], 2), ([ 'm', 'a', 'r'], 3), ([ 'a', 'p', 'r'], 4),
    ([ 'm', 'a', 'y'], 5), ([ 'j', 'u', 'n'], 6), ([ 'j', 'u', 'l'], 7), ([ 'a', 'u', 'g'], 8),
    ([ 's', 'e', 'p'], 9), ([ 'o', 'c', 't'], 10), ([ 'n', 'o', 'v'], 11), ([ 'd', 'e', 'c'], 12)]

/-- `datetime.strptime(month[:3], '%b').month`, as a partial lookup:
`none` models the `ValueError` that `strptime` raises on anything that
is not a month abbreviation. -/
def monthNum (m : List Char) : Option Nat :=
  (monthAbbrevs.find? (fun p => p.1 == (m.take 3).map Char.toLower)).map Prod.snd

/-- Digits-to-number, for Python `int(day)`. -/
def digitsToNat (ds : List Char) : Nat :=
  ds.foldl (fun n c => 10 * n + (c.toNat - 48)) 0

/-- Python `%02d` for the numbers appearing here (≤ 99). -/
def pad2 (n : Nat) : List Char :=
  if n < 10 then [ '0', Char.ofNat (48 + n)] else Nat.toDigits 10 n

deriving instance DecidableEq for Except

/-- `MetadataExtractor.parse_date`.  `Except.error ()` models an
uncaught `ValueError` escaping from `datetime.strptime`. -/
def parse_date (l : List Char) : Except Unit (Option (List Char)) :=
  match findDMY l with
  | none => Except.ok none
  | some (d, m, y) =>
    match monthNum m with
    | none => Except.error ()
    | some n => Except.ok (some (y ++ '-' :: pad2 n ++ '-' :: pad2 (digitsToNat d)))

example : parse_date (("22nd Jan 2024").toList) = Except.ok (some (("2024-01-22").toList)) := by decide

example : parse_date (("1st Nov 2024").toList) = Except.ok (some (("2024-11-01").toList)) := by decide

example : parse_date (("no date here").toList) = Except.ok none := by decide

example : parse_date (("22 Xyz 2024").toList) = Except.error () := by decide

/-! ## `ArticleExtractor.clean_content` (alignment_forum_extract.py 23-120)

The DOM walk is embedded through a `Soup` record holding what
`BeautifulSoup.find` / `find_all` return: the raw text of the title,
author-info and date header elements, and the block-level elements
(`p`, `h1`-`h4`, `li`) of the content area in document order.  The
`decompose()` calls (script/style/iframe and the structural class
denylist) only remove elements before this walk, so they are absorbed
into the oracle input. -/

/-- Block-level tags walked by `clean_content`. -/
inductive BTag
  | p | h1 | h2 | h3 | h4 | li
deriving DecidableEq

/-- `elem.name.startswith('h')`. -/
def isHeaderTag : BTag → Bool
  | BTag.h1 => true
  | BTag.h2 => true
  | BTag.h3 => true
  | BTag.h4 => true
  | _ => false

/-- What `soup.find(...)` returned for the pieces `clean_content` reads. -/
structure Soup where
  titleElem : Option (List Char)
  authorElem : Option (List Char)
  dateElem : Option (List Char)
  contentElems : Option (List (BTag × List Char))

/-- The boilerplate phrase denylist of `clean_content`. -/
def denyPhrases : List (List Char) :=
  [ ("new comment").toList, ("mentioned in").toList, ("load more").toList,
    ("karma").toList, ("vote").toList, ("share").toList, ("find out when").toList,
    ("read the full post").toList, ("this is a linkpost").toList]

/-- `any(x in text.lower() for x in [...])`. -/
def isDenied (text : List Char) : Bool :=
  denyPhrases.any (fun p => hasSub p (text.map Char.toLower))

/-- One iteration of the `for elem in content_area.find_all([...])` loop.
State: (content lines emitted so far, `last_text`).  Note that
`last_text` is assigned the bullet-decorated text for list items, while
the comparison uses the raw trimmed text. -/
def contentStep (st : List (List Char) × Option (List Char)) (e : BTag × List Char) :
    List (List Char) × Option (List Char) :=
  let text := pyStrip e.2
  if text.isEmpty || isDenied text then st
  else if st.2 == some text then st
  else
    let dtext := if e.1 = BTag.li then '•' :: ' ' :: text else text
    let withSpacer := if isHeaderTag e.1 && !st.1.isEmpty then st.1 ++ [ []] else st.1
    (withSpacer ++ [dtext], some dtext)

/-- The `article_data['content']` list built by `clean_content`. -/
def contentLines (elems : List (BTag × List Char)) : List (List Char) :=
  (elems.foldl contentStep ([], none)).1

/-- `re.search(r'by\s+([\w\s,]+)', s)` at one position: after `by` the
greedy `\s+` takes the maximal whitespace run; the group then needs at
least one `[\w\s,]` character, which on backtracking may be the last
whitespace character itself. -/
def byAuthorAt (l : List Char) : Option (List Char) :=
  match l with
  | 'b' :: 'y' :: c :: cs =>
    if isSpaceCh c then
      let sp := (c :: cs).takeWhile isSpaceCh
      let rest := (c :: cs).dropWhile isSpaceCh
      match rest with
      | d :: _ =>
        if isWordish d then some (rest.takeWhile isWordish)
        else if sp.length ≥ 2 then some [sp.getLastD ' '] else none
      | [] => if sp.length ≥ 2 then some [sp.getLastD ' '] else none
    else none
  | _ => none

/-- `re.search(r'by\s+([\w\s,]+)', s)`: leftmost match, captured group. -/
def byAuthorFind : List Char → Option (List Char)
  | [] => none
  | c :: cs =>
    match byAuthorAt (c :: cs) with
    | some g => some g
    | none => byAuthorFind cs

/-- Tail `\s+[A-Z][a-z]+\s+\d{4}` of the metadata date pattern,
returning the matched characters (all runs forced maximal because the
adjacent classes are disjoint). -/
def dateSpanTail (l : List Char) : Option (List Char) :=
  let sp := l.takeWhile isSpaceCh
  if sp.isEmpty then none else
  match l.dropWhile isSpaceCh with
  | u :: r2 =>
    if u.isUpper then
      let low := r2.takeWhile Char.isLower
      if low.isEmpty then none else
      let r3 := r2.dropWhile Char.isLower
      let sp2 := r3.takeWhile isSpaceCh
      if sp2.isEmpty then none else
      match r3.dropWhile isSpaceCh with
      | a :: b :: c :: d :: _ =>
        if a.isDigit && b.isDigit && c.isDigit && d.isDigit then
          some (sp ++ u :: low ++ sp2 ++ [a, b, c, d])
        else none
      | _ => none
    else none
  | [] => none

/-- Day digits, optional ordinal, then the tail, for the metadata date
pattern `(\d{1,2}(?:st|nd|rd|th)?\s+[A-Z][a-z]+\s+\d{4})`. -/
def dateSpanAfterDay (day l : List Char) : Option (List Char) :=
  match l with
  | x :: y :: r =>
    if isOrdinalPair x y then
      match dateSpanTail r with
      | some m => some (day ++ x :: y :: m)
      | none => (dateSpanTail l).map (fun m => day ++ m)
    else (dateSpanTail l).map (fun m => day ++ m)
  | _ => (dateSpanTail l).map (fun m => day ++ m)

/-- Match of the metadata date pattern at one position (greedy day). -/
def dateSpanAt (l : List Char) : Option (List Char) :=
  match l with
  | a :: rest =>
    if a.isDigit then
      match rest with
      | b :: r2 =>
        if b.isDigit then
          match dateSpanAfterDay [a, b] r2 with
          | some m => some m
          | none => dateSpanAfterDay [a] rest
        else dateSpanAfterDay [a] rest
      | [] => dateSpanAfterDay [a] []
    else none
  | [] => none

/-- `re.search` for the metadata date pattern: leftmost match text. -/
def findDateSpan : List Char → Option (List Char)
  | [] => none
  | c :: cs =>
    match dateSpanAt (c :: cs) with
    | some m => some m
    | none => findDateSpan cs

/-- Scanner for `re.sub(r'\n{3,}', '\n\n', text)`.  The greedy pattern
eats each maximal newline run of length ≥ 3 and replaces it with two
newlines; that is the same as keeping only the first two newlines of
every run, which this scanner does with `k` counting the newlines kept
from the current run. -/
def collapseRun : List Char → Nat → List Char
  | [], _ => []
  | c :: cs, k =>
    if c = '\n' then
      if k ≥ 2 then collapseRun cs k else '\n' :: collapseRun cs (k + 1)
    else c :: collapseRun cs 0

/-- `re.sub(r'\n{3,}', '\n\n', text)`. -/
def collapseNL (l : List Char) : List Char :=
  collapseRun l 0

/-- `ArticleExtractor.clean_content`: title, metadata line and body
lines are assembled, empty parts are dropped by `filter(None, ...)`
(this also drops the `''` spacers inserted before headers), the parts
are joined with blank lines, and newline runs are collapsed. -/
def clean_content (s : Soup) : List Char :=
  let title := match s.titleElem with
    | some t => clean_title (pyStrip t)
    | none => []
  let authorPart : Option (List Char) :=
    (s.authorElem.bind (fun a => byAuthorFind (pyStrip a))).map
      (fun g => 'b' :: 'y' :: ' ' :: pyStrip g)
  let datePart : Option (List Char) :=
    s.dateElem.bind (fun d => findDateSpan (pyStrip d))
  let metadata := List.intercalate ([ ' ', '|', ' '])
    ((match authorPart with | some a => [a] | none => []) ++
     (match datePart with | some d => [d] | none => []))
  let content := match s.contentElems with
    | some es => contentLines es
    | none => []
  let full := List.intercalate ([ '\n', '\n'])
    (([title, metadata] ++ content).filter (fun p => !p.isEmpty))
  collapseNL full

example : contentLines [ (BTag.li, ("foo").toList), (BTag.li, ("foo").toList)] =
    [ ("• foo").toList, ("• foo").toList] := by decide

example : clean_content
    { titleElem := some (("Great Post by Jane Doe 22nd Jan 202412 min read").toList),
      authorElem := some (("by Jane Doe").toList),
      dateElem := some (("22nd Jan 2024").toList),
      contentElems := some [ (BTag.p, ("Hello world.").toList), (BTag.p, ("Hello world.").toList)] } =
    ("Great Post\n\nby Jane Doe | 22nd Jan 2024\n\nHello world.").toList := by decide

/-! ## `TextCleaner` (arxiv_extract.py 16-107) -/

/-- One match of `(\w+)-\n(\w+)` at the start of `l`: maximal word run,
then `-`, newline, then a nonempty word run.  Returns the two word runs
and the rest of the string after the match. -/
def hyphSplit (l : List Char) : Option (List Char × List Char × List Char) :=
  let w1 := l.takeWhile isWordCh
  if w1.isEmpty then none else
  match l.dropWhile isWordCh with
  | '-' :: '\n' :: r2 =>
    let w2 := r2.takeWhile isWordCh
    if w2.isEmpty then none else some (w1, w2, r2.dropWhile isWordCh)
  | _ => none

theorem hyphSplit_rest_lt {l w1 w2 rest : List Char}
    (h : hyphSplit l = some (w1, w2, rest)) : rest.length < l.length := by
  unfold hyphSplit at h
  by_cases hw : (l.takeWhile isWordCh).isEmpty
  · simp [hw] at h
  · simp only [hw, Bool.false_eq_true, if_false] at h
    split at h
    · rename_i r2 heq
      by_cases h2 : (r2.takeWhile isWordCh).isEmpty
      · simp [h2] at h
      · simp only [h2, Bool.false_eq_true, if_false, Option.some.injEq, Prod.mk.injEq] at h
        obtain ⟨-, -, hrest⟩ := h
        have hlen : l.length = (l.takeWhile isWordCh).length + (l.dropWhile isWordCh).length := by
          conv_lhs => rw [← List.takeWhile_append_dropWhile (p := isWordCh) (l := l)]
          rw [List.length_append]
        have h3 := List.IsSuffix.length_le (List.dropWhile_suffix (l := r2) isWordCh)
        have hw1 : 0 < (l.takeWhile isWordCh).length := by
          rcases htw : l.takeWhile isWordCh with _ | ⟨a, w⟩
          · rw [htw] at hw; simp at hw
          · simp
        rw [heq] at hlen
        subst hrest
        simp only [List.length_cons] at hlen
        omega
    · simp at h

/-- `TextCleaner.dehyphenate`: `re.sub(r'(\w+)-\n(\w+)', r'\1\2', text)`
with `re.sub`'s scan semantics (after a replacement the scan resumes
after the matched region). -/
def dehyphenate : List Char → List Char
  | [] => []
  | c :: cs =>
    match h : hyphSplit (c :: cs) with
    | some (w1, w2, rest) => w1 ++ w2 ++ dehyphenate rest
    | none => c :: dehyphenate cs
termination_by l => l.length
decreasing_by
  · exact hyphSplit_rest_lt h
  · simp

/-- `re.sub(r' +', ' ', text)`: collapse each maximal run of spaces. -/
def squeezeSpaces : List Char → List Char
  | [] => []
  | c :: cs =>
    if c = ' ' then ' ' :: squeezeSpaces (cs.dropWhile (fun x => x = ' '))
    else c :: squeezeSpaces cs
termination_by l => l.length
decreasing_by
  · have := List.IsSuffix.length_le (List.dropWhile_suffix (l := cs) (fun x => x = ' '))
    simp; omega
  · simp

/-- `re.sub(r'\.(?=[A-Z])', '. ', text)`: the lookahead is not consumed,
so the scan resumes at the uppercase letter. -/
def dotSpace : List Char → List Char
  | [] => []
  | [c] => [c]
  | '.' :: c :: cs =>
    if c.isUpper then '.' :: ' ' :: dotSpace (c :: cs) else '.' :: dotSpace (c :: cs)
  | c :: cs => c :: dotSpace cs

/-- The class `[.,;:?\)]` of `fix_spacing`'s third rule. -/
def isClosePunct (c : Char) : Bool :=
  c = '.' || c = ',' || c = ';' || c = ':' || c = '?' || c = ')'

/-- `re.sub(r'\s+([.,;:?\)])', r'\1', text)`: a whitespace run directly
followed by closing punctuation is deleted; a run not followed by such
punctuation cannot start a match anywhere inside it. -/
def stripSpacePunct : List Char → List Char
  | [] => []
  | c :: cs =>
    if hc : isSpaceCh c then
      match hd : (c :: cs).dropWhile isSpaceCh with
      | p :: rs =>
        if isClosePunct p then p :: stripSpacePunct rs
        else (c :: cs).takeWhile isSpaceCh ++ stripSpacePunct (p :: rs)
      | [] => (c :: cs).takeWhile isSpaceCh
    else c :: stripSpacePunct cs
termination_by l => l.length
decreasing_by
  · have h1 := List.IsSuffix.length_le (List.dropWhile_suffix (l := cs) isSpaceCh)
    rw [List.dropWhile_cons, if_pos hc] at hd
    rw [hd] at h1
    simp only [List.length_cons] at h1 ⊢
    omega
  · have h1 := List.IsSuffix.length_le (List.dropWhile_suffix (l := cs) isSpaceCh)
    rw [List.dropWhile_cons, if_pos hc] at hd
    rw [hd] at h1
    simp only [List.length_cons] at h1 ⊢
    omega
  · simp

/-- The class `[.,;:?!]` of `fix_spacing`'s fourth rule. -/
def isPunctEx (c : Char) : Bool :=
  c = '.' || c = ',' || c = ';' || c = ':' || c = '?' || c = '!'

/-- `re.sub(r'([.,;:?!])([A-Z])', r'\1 \2', text)`: the scan resumes
after the uppercase letter. -/
def punctUpperSpace : List Char → List Char
  | [] => []
  | [c] => [c]
  | p :: c :: cs =>
    if isPunctEx p && c.isUpper then p :: ' ' :: c :: punctUpperSpace cs
    else p :: punctUpperSpace (c :: cs)

/-- `TextCleaner.fix_spacing`: the four substitutions in source order. -/
def fix_spacing (l : List Char) : List Char :=
  punctUpperSpace (stripSpacePunct (dotSpace (squeezeSpaces l)))

/-- One iteration of the `merge_columns` loop.  State: (merged lines,
buffer).  A line starting with four spaces is appended to the buffer
(always preceded by one space, even into an empty buffer); any other
line flushes a nonempty buffer and restarts it. -/
def mergeStep (st : List (List Char) × List Char) (line : List Char) :
    List (List Char) × List Char :=
  if ([ ' ', ' ', ' ', ' ']).isPrefixOf line then
    (st.1, st.2 ++ ' ' :: pyStrip line)
  else
    ((if st.2.isEmpty then st.1 else st.1 ++ [st.2]), pyStrip line)

/-- The `merged_lines` list built by `TextCleaner.merge_columns`,
including the final flush of a nonempty buffer. -/
def merge_columns_lines (text : List Char) : List (List Char) :=
  let st := (text.splitOn '\n').foldl mergeStep ([], [])
  if st.2.isEmpty then st.1 else st.1 ++ [st.2]

/-- `TextCleaner.merge_columns`. -/
def merge_columns (text : List Char) : List Char :=
  List.intercalate [ '\n'] (merge_columns_lines text)

/-- The section keywords of `TextCleaner.section_headers`. -/
def sectionWords : List (List Char) :=
  [ ("abstract").toList, ("introduction").toList, ("background").toList,
    ("methodology").toList, ("methods").toList, ("results").toList,
    ("discussion").toList, ("conclusion").toList, ("references").toList,
    ("acknowledgments").toList]

/-- `re.match(self.section_headers, line.lower())`: the anchored
alternation holds iff some keyword is a prefix of the lowercased line. -/
def isSectionHeader (line : List Char) : Bool :=
  sectionWords.any (fun w => w.isPrefixOf (line.map Char.toLower))

/-- `\s+\d+` after a figure/table keyword: at least one whitespace
character, then (after the maximal whitespace run) at least one digit. -/
def figureTailOk (r : List Char) : Bool :=
  !(r.takeWhile isSpaceCh).isEmpty &&
    (match r.dropWhile isSpaceCh with
     | d :: _ => d.isDigit
     | [] => false)

/-- `re.match(r'(Figure|Fig\.|Table)\s+\d+', line)`. -/
def isFigureRef (line : List Char) : Bool :=
  (("Figure").toList.isPrefixOf line && figureTailOk (line.drop 6)) ||
  (("Fig.").toList.isPrefixOf line && figureTailOk (line.drop 4)) ||
  (("Table").toList.isPrefixOf line && figureTailOk (line.drop 5))

/-- `TextCleaner.format_section` at the default level 1. -/
def format_section (s : List Char) : List Char :=
  '\n' :: '#' :: ' ' :: pyStrip s ++ [ '\n']

/-- One iteration of the `clean_text` line loop.  State: (processed
lines, `current_section`). -/
def ctStep (st : List (List Char) × List Char) (rawLine : List Char) :
    List (List Char) × List Char :=
  let line := pyStrip rawLine
  if line.isEmpty then st
  else if isSectionHeader line then
    ((if st.2.isEmpty then st.1 else st.1 ++ [ []]) ++ [format_section line], line)
  else if isFigureRef line then
    (st.1 ++ [ [], line, []], st.2)
  else
    let fline := fix_spacing line
    if !st.1.isEmpty && !(fline.headD ' ').isUpper && !(fline.headD ' ').isDigit then
      (st.1.dropLast ++ [st.1.getLastD [] ++ ' ' :: fline], st.2)
    else (st.1 ++ [fline], st.2)

/-- `TextCleaner.clean_text`. -/
def clean_text (l : List Char) : List Char :=
  let t := dehyphenate (pyStrip l)
  let processed := ((t.splitOn '\n').foldl ctStep ([], [])).1
  collapseNL (List.intercalate [ '\n'] processed)

/-! ## `ArxivExtractor.extract_text_from_pdf` (arxiv_extract.py 158-190)

A page's `page.extract_text(...)` either raises (`Except.error`) or
returns an optional text (`None`/empty is skipped).  The whole `with
pdfplumber.open(...)` block sits in one `try`, so the first raising
page aborts the document.  (The `start_page` computed for cover pages
is never read afterwards, so it does not appear in the model.) -/

/-- The page loop: per page `merge_columns` is applied and the result
collected; an exception aborts the whole loop. -/
def gatherPages : List (Except Unit (Option (List Char))) → Except Unit (List (List Char))
  | [] => Except.ok []
  | pg :: ps =>
    match pg with
    | Except.error e => Except.error e
    | Except.ok none => gatherPages ps
    | Except.ok (some t) => (gatherPages ps).map (fun rest => merge_columns t :: rest)

/-- `ArxivExtractor.extract_text_from_pdf`: join the per-page texts and
clean them; any exception is caught, logged, and turned into the empty
string. -/
def extract_text_from_pdf (pages : List (Except Unit (Option (List Char)))) : List Char :=
  match gatherPages pages with
  | Except.error _ => []
  | Except.ok texts => clean_text (List.intercalate [ '\n'] texts)

/-! ## URL processing and batch loops

The network stack (`requests.get` + `raise_for_status` + parsing, or
the `arxiv` API client) is an oracle `fetch`; `Except.error` is a
raised exception.  Each model also returns the list of fetches it
issued, so that "fetched at most once, no retry" is visible in the
embedding. -/

/-- The domain literal checked by the forum scripts. -/
def afDomain : List Char := ("alignmentforum.org").toList

/-- `ArticleExtractor.process_url` (alignment_forum_extract.py
141-164): domain check, then one fetch; every exception inside the
`try` is caught and logged and the function returns normally.  Result:
(content saved for this URL if any, fetches issued). -/
def af_process_url (fetch : List Char → Except Unit Soup) (url : List Char) :
    Option (List Char) × List (List Char) :=
  if !hasSub afDomain url then (none, [])
  else
    match fetch url with
    | Except.error _ => (none, [url])
    | Except.ok soup =>
      let content := clean_content soup
      if !(pyStrip content).isEmpty then (some content, [url]) else (none, [url])

/-- The `--file` batch loop of `alignment_forum_extract.main`: every URL
is processed in order; nothing propagates out of `process_url`. -/
def af_batch (fetch : List Char → Except Unit Soup) :
    List (List Char) → List (Option (List Char)) × List (List Char)
  | [] => ([], [])
  | u :: rest =>
    let r := af_process_url fetch u
    let acc := af_batch fetch rest
    (r.1 :: acc.1, r.2 ++ acc.2)

/-- Match one character of the unescaped-dot literals in `extract_id`'s
patterns (`arxiv.org/abs/` etc.): a `.` in the pattern is the regex
wildcard and matches any non-newline character. -/
def litAnyDot : List Char → List Char → Option (List Char)
  | [], l => some l
  | _ :: _, [] => none
  | p :: ps, c :: cs =>
    if (if p = '.' then notNL c else p == c) then litAnyDot ps cs else none

/-- The captured group `(\d+\.\d+)`: maximal digit run, literal dot,
maximal digit run. -/
def idDigits (l : List Char) : Option (List Char) :=
  let d1 := l.takeWhile Char.isDigit
  if d1.isEmpty then none else
  match l.dropWhile Char.isDigit with
  | '.' :: r2 =>
    let d2 := r2.takeWhile Char.isDigit
    if d2.isEmpty then none else some (d1 ++ '.' :: d2)
  | _ => none

/-- `re.search` for one `extract_id` pattern: literal (with wildcard
dots) then the id group, leftmost match. -/
def searchIdPat (pat : List Char) : List Char → Option (List Char)
  | [] => none
  | c :: cs =>
    match (litAnyDot pat (c :: cs)).bind idDigits with
    | some r => some r
    | none => searchIdPat pat cs

/-- `ArxivExtractor.extract_id` (same in arxiv_meta.py 31-42 and
arxiv_extract.py 119-130): the three patterns are tried in order. -/
def extract_id (url : List Char) : Option (List Char) :=
  match searchIdPat (("arxiv.org/abs/").toList) url with
  | some i => some i
  | none =>
    match searchIdPat (("arxiv.org/pdf/").toList) url with
    | some i => some i
    | none => searchIdPat (("arxiv:").toList) url

/-- `ArxivExtractor.process_url` of arxiv_meta.py (80-107): domain
check, id extraction, then one fetch.  A fetch failure is logged and
then re-raised (`raise`), so the exception escapes as `Except.error`.
(`save_json`'s effect on the store is modeled separately below.) -/
def am_process_url {α : Type} (fetch : List Char → Except Unit α) (url : List Char) :
    Except Unit (Option α) × List (List Char) :=
  if !(hasSub (("arxiv.org").toList) url || hasSub (("arxiv:").toList) url) then
    (Except.ok none, [])
  else
    match extract_id url with
    | none => (Except.ok none, [])
    | some aid =>
      match fetch aid with
      | Except.error e => (Except.error e, [aid])
      | Except.ok paper => (Except.ok (some paper), [aid])

/-- The `--file` batch loop of `arxiv_meta.main`: the whole loop sits in
one `try`, whose handler calls `exit(1)`, so the first URL whose
`process_url` raises aborts the run and later URLs are never touched. -/
def am_batch {α : Type} (fetch : List Char → Except Unit α) :
    List (List Char) → Except Unit (List (Option α)) × List (List Char)
  | [] => (Except.ok [], [])
  | u :: rest =>
    match am_process_url fetch u with
    | (Except.error e, tr) => (Except.error e, tr)
    | (Except.ok r, tr) =>
      let acc := am_batch fetch rest
      ((acc.1).map (fun rs => r :: rs), tr ++ acc.2)

/-! ## The JSON metadata stores

A JSON object is an association list; `dictInsert` is Python-`dict`
assignment (updating an existing key keeps its position, a new key is
appended at the end).  The key type is kept abstract: the scripts use
id strings, and only decidable equality (and, for sorting, a linear
order) of keys matters. -/

/-- Python `data[k] = v` on a `dict`. -/
def dictInsert {κ α : Type} [DecidableEq κ] (d : List (κ × α)) (k : κ) (v : α) :
    List (κ × α) :=
  if d.any (fun q => q.1 = k) then d.map (fun q => if q.1 = k then (k, v) else q)
  else d ++ [(k, v)]

/-- `dict(sorted(data.items()))`: stable sort by key (keys are unique in
a JSON object, so the tuple comparison never reaches the values). -/
def sortByKey {κ α : Type} [LinearOrder κ] (d : List (κ × α)) : List (κ × α) :=
  List.insertionSort (fun a b => a.1 ≤ b.1) d

/-- `MetadataExtractor.load_existing_data` (alignment_forum_meta.py
15-20): a missing file yields `{}`, but `json.load` is not guarded, so
a decode failure propagates as an exception. -/
def load_existing_data {κ α : Type} (file : Option (Except Unit (List (κ × α)))) :
    Except Unit (List (κ × α)) :=
  match file with
  | none => Except.ok []
  | some r => r

/-- The file contents written by `MetadataExtractor.process_url` +
`save_metadata` (alignment_forum_meta.py 76-109): update the in-memory
dict by key, then write it sorted by key. -/
def save_metadata {κ α : Type} [LinearOrder κ] (existing : List (κ × α)) (k : κ) (v : α) :
    List (κ × α) :=
  sortByKey (dictInsert existing k v)

/-- The load inside `ArxivExtractor.save_json` (arxiv_meta.py 60-72):
missing file or decode failure both yield `{}` (the decode error is
caught, "start fresh"). -/
def loadOrEmpty {κ α : Type} (file : Option (Except Unit (List (κ × α)))) : List (κ × α) :=
  match file with
  | none => []
  | some (Except.ok d) => d
  | some (Except.error _) => []

/-- The file contents written by `ArxivExtractor.save_json`
(arxiv_meta.py 60-78): load, update by key, write back without sorting. -/
def save_json {κ α : Type} [DecidableEq κ] (file : Option (Except Unit (List (κ × α))))
    (k : κ) (v : α) : List (κ × α) :=
  dictInsert (loadOrEmpty file) k v

/-! ## Theorems -/

/-- C8: `parse_date` maps `22nd Jan 2024` to `2024-01-22` and
`1st Nov 2024` to `2024-11-01`, going through the three-letter month
abbreviation lookup and producing `YYYY-MM-DD`. -/
theorem c8_parse_date_values :
    parse_date (("22nd Jan 2024").toList) = Except.ok (some (("2024-01-22").toList)) ∧
    parse_date (("1st Nov 2024").toList) = Except.ok (some (("2024-11-01").toList)) :=
  ⟨by decide, by decide⟩

/-- Does a line sequence contain two identical adjacent entries? -/
def hasAdjacentDup : List (List Char) → Bool
  | [] => false
  | [_] => false
  | a :: b :: rest => a == b || hasAdjacentDup (b :: rest)

/-- C1: the adjacent-duplicate invariant of `clean_content`'s body lines
fails on two consecutive identical list items.  The dedup check compares
the new raw trimmed text with `last_text`, but `last_text` was assigned
the bullet-decorated text, so `foo` ≠ `• foo` and the second identical
item is emitted again: the emitted body-line sequence contains two
identical adjacent entries. -/
theorem c1_adjacent_duplicate_list_items :
    contentLines [ (BTag.li, ("foo").toList), (BTag.li, ("foo").toList)] =
      [ ("• foo").toList, ("• foo").toList] ∧
    hasAdjacentDup
        (contentLines [ (BTag.li, ("foo").toList), (BTag.li, ("foo").toList)]) = true :=
  ⟨by decide, by decide⟩

/-- C3 counterexample: on `22 Xyz 2024` no valid date can be parsed,
yet `parse_date` does not return an absent result: the regex matches,
`Xyz` reaches `datetime.strptime`, and a `ValueError` escapes. -/
theorem c3_counterexample :
    parse_date (("22 Xyz 2024").toList) = Except.error () := by decide

/-- C3 amended: when the day-month-year pattern does not match anywhere
in the input, `parse_date` returns an absent result (`None`) and raises
no exception; but when the pattern matches with a month word that is
not a month-abbreviation, the `strptime` `ValueError` propagates. -/
theorem c3_amended_no_match_returns_none (l : List Char) (h : findDMY l = none) :
    parse_date l = Except.ok none := by
  unfold parse_date
  rw [h]

theorem c3_amended_witness :
    findDMY (("hello world").toList) = none ∧
    parse_date (("hello world").toList) = Except.ok none :=
  ⟨by decide, c3_amended_no_match_returns_none _ (by decide)⟩

/-- C6 counterexample: a JSON decode failure on the existing output
file of the forum metadata extractor is not treated as "no prior data":
`load_existing_data` propagates the exception instead of returning an
empty store. -/
theorem c6_counterexample :
    load_existing_data (some (Except.error ()) : Option (Except Unit (List (Nat × Nat)))) =
      Except.error () := rfl

/-- C6 amended: the arXiv metadata extractor treats a decode failure on
the existing output file as no prior data (`save_json` proceeds from an
empty store), while the forum metadata extractor's
`load_existing_data` propagates the decode exception. -/
theorem c6_amended {κ α : Type} [DecidableEq κ] (k : κ) (v : α) :
    loadOrEmpty (some (Except.error ()) : Option (Except Unit (List (κ × α)))) = [] ∧
    save_json (some (Except.error ())) k v = [ (k, v)] ∧
    load_existing_data (some (Except.error ()) : Option (Except Unit (List (κ × α)))) =
      Except.error () := by
  refine ⟨rfl, ?_, rfl⟩
  simp [save_json, loadOrEmpty, dictInsert]

/-- If any page raises, the page loop raises. -/
theorem gatherPages_error {pages : List (Except Unit (Option (List Char)))}
    (h : Except.error () ∈ pages) : gatherPages pages = Except.error () := by
  induction pages with
  | nil => cases h
  | cons pg ps ih =>
    rcases List.mem_cons.mp h with h1 | h1
    · rw [← h1]; rfl
    · match pg with
      | Except.error e => rfl
      | Except.ok none => exact ih h1
      | Except.ok (some t) => simp [gatherPages, ih h1, Except.map]

/-- C7: if the per-page text extraction raises for any page, the whole
document-level extraction is abandoned and `extract_text_from_pdf`
returns the empty string (the exception is caught, not propagated). -/
theorem c7_page_error_yields_empty_document
    (pages : List (Except Unit (Option (List Char)))) (h : Except.error () ∈ pages) :
    extract_text_from_pdf pages = [] := by
  unfold extract_text_from_pdf
  rw [gatherPages_error h]

theorem c7_page_error_witness :
    Except.error () ∈ ([ Except.ok (some (("ab").toList)), Except.error ()] :
      List (Except Unit (Option (List Char)))) ∧
    extract_text_from_pdf [ Except.ok (some (("ab").toList)), Except.error ()] = [] :=
  ⟨by decide, c7_page_error_yields_empty_document _ (by decide)⟩

/-- The `merge_columns` loop invariant: lines are only flushed into
`merged_lines` when the buffer is nonempty. -/
theorem mergeFold_ne_nil (lines : List (List Char)) (st : List (List Char) × List Char)
    (h : ∀ x ∈ st.1, x ≠ []) :
    ∀ x ∈ (lines.foldl mergeStep st).1, x ≠ [] := by
  induction lines generalizing st with
  | nil => exact h
  | cons ln rest ih =>
    refine ih _ ?_
    intro x hx
    unfold mergeStep at hx
    by_cases hp : ([ ' ', ' ', ' ', ' ']).isPrefixOf ln
    · simp only [hp, if_true] at hx
      exact h x hx
    · simp only [hp, Bool.false_eq_true, if_false] at hx
      by_cases hb : st.2.isEmpty
      · simp only [hb, if_true] at hx
        exact h x hx
      · simp only [hb, Bool.false_eq_true, if_false, List.mem_append,
          List.mem_singleton] at hx
        rcases hx with hx | hx
        · exact h x hx
        · subst hx
          intro hcon
          rw [hcon] at hb
          simp at hb

/-- C10: every line of `merge_columns`' output list is non-empty: an
empty input line only flushes the pending buffer and is never itself
emitted, so blank-line separation in the input is absent from the
column-merged output. -/
theorem c10_merge_columns_lines_nonempty (text : List Char) :
    ∀ l ∈ merge_columns_lines text, l ≠ [] := by
  intro l hl
  unfold merge_columns_lines at hl
  by_cases hb : ((text.splitOn '\n').foldl mergeStep ([], [])).2.isEmpty
  · simp only [hb, if_true] at hl
    exact mergeFold_ne_nil _ _ (by intro x hx; cases hx) l hl
  · simp only [hb, Bool.false_eq_true, if_false, List.mem_append,
      List.mem_singleton] at hl
    rcases hl with hl | hl
    · exact mergeFold_ne_nil _ _ (by intro x hx; cases hx) l hl
    · subst hl
      intro hcon
      rw [hcon] at hb
      simp at hb

theorem c10_witness :
    ("a b").toList ∈ merge_columns_lines (("a\n    b\n\ncd").toList : List Char) ∧
    ("a b").toList ≠ ([] : List Char) :=
  ⟨by decide, c10_merge_columns_lines_nonempty (("a\n    b\n\ncd").toList) _ (by decide)⟩

/-- Checker: scanning `l` with `k` newlines already seen immediately
before, no run of consecutive newlines ever reaches length 3. -/
def nlRunBounded : List Char → Nat → Bool
  | [], _ => true
  | c :: cs, k =>
    if c = '\n' then decide (k + 1 ≤ 2) && nlRunBounded cs (k + 1)
    else nlRunBounded cs 0

theorem collapseRun_cons_nl_ge (cs : List Char) (k : Nat) (h : k ≥ 2) :
    collapseRun ('\n' :: cs) k = collapseRun cs k := by
  simp [collapseRun, h]

theorem collapseRun_cons_nl_lt (cs : List Char) (k : Nat) (h : ¬ k ≥ 2) :
    collapseRun ('\n' :: cs) k = '\n' :: collapseRun cs (k + 1) := by
  simp [collapseRun, h]

theorem collapseRun_cons_other (c : Char) (cs : List Char) (k : Nat) (h : ¬ c = '\n') :
    collapseRun (c :: cs) k = c :: collapseRun cs 0 := by
  simp [collapseRun, h]

/-- After collapsing, every newline run is bounded by 2. -/
theorem collapseRun_bounded (l : List Char) (k : Nat) (hk : k ≤ 2) :
    nlRunBounded (collapseRun l k) k = true := by
  induction l generalizing k with
  | nil => rfl
  | cons c cs ih =>
    by_cases hc : c = '\n'
    · subst hc
      by_cases h2 : k ≥ 2
      · rw [collapseRun_cons_nl_ge cs k h2]
        exact ih k hk
      · have hk1 : k + 1 ≤ 2 := by omega
        rw [collapseRun_cons_nl_lt cs k h2]
        have : nlRunBounded ('\n' :: collapseRun cs (k + 1)) k =
            (decide (k + 1 ≤ 2) && nlRunBounded (collapseRun cs (k + 1)) (k + 1)) := by
          simp [nlRunBounded]
        rw [this]
        simp only [Bool.and_eq_true, decide_eq_true_eq]
        exact ⟨hk1, ih (k + 1) hk1⟩
    · rw [collapseRun_cons_other c cs k hc]
      have : nlRunBounded (c :: collapseRun cs 0) k =
          nlRunBounded (collapseRun cs 0) 0 := by
        simp [nlRunBounded, hc]
      rw [this]
      exact ih 0 (by omega)

/-- C9: the final output of both the forum body assembler
(`clean_content`) and the PDF cleaning pipeline (`clean_text`) contains
no run of 3 or more consecutive newlines, and a run of 3+ newlines
reaching the final substitution is collapsed to exactly 2. -/
theorem c9_no_triple_newline (l : List Char) (s : Soup) :
    nlRunBounded (clean_text l) 0 = true ∧
    nlRunBounded (clean_content s) 0 = true ∧
    collapseNL (("a\n\n\n\n\nb").toList) = ("a\n\nb").toList := by
  refine ⟨?_, ?_, by decide⟩
  · unfold clean_text collapseNL
    exact collapseRun_bounded _ 0 (by omega)
  · unfold clean_content collapseNL
    exact collapseRun_bounded _ 0 (by omega)

/-- Python `dict` assignment twice with the same key: the second value
wins and the first write leaves no trace. -/
theorem dictInsert_dictInsert {κ α : Type} [DecidableEq κ] (d : List (κ × α)) (k : κ)
    (v1 v2 : α) : dictInsert (dictInsert d k v1) k v2 = dictInsert d k v2 := by
  by_cases h : d.any (fun q => q.1 = k) = true
  · obtain ⟨x, hx, hxk⟩ := List.any_eq_true.mp h
    have hxk' : x.1 = k := by simpa using hxk
    have h2 : (d.map (fun q => if q.1 = k then (k, v1) else q)).any (fun q => q.1 = k)
        = true := by
      refine List.any_eq_true.mpr ⟨(k, v1), List.mem_map.mpr ⟨x, hx, ?_⟩, by simp⟩
      simp [hxk']
    unfold dictInsert
    rw [if_pos h, if_pos h2, if_pos h, List.map_map]
    refine List.map_congr_left ?_
    intro q _
    by_cases hk : q.1 = k
    · simp [Function.comp, hk]
    · simp [Function.comp, hk]
  · have hall : ∀ q ∈ d, ¬ (q.1 = k) := by
      intro q hq hk
      exact h (List.any_eq_true.mpr ⟨q, hq, by simp [hk]⟩)
    have h2 : ((d ++ [ (k, v1)]).any (fun q => q.1 = k)) = true :=
      List.any_eq_true.mpr ⟨(k, v1), by simp, by simp⟩
    unfold dictInsert
    rw [if_neg h, if_pos h2, if_neg h, List.map_append]
    have hmap : d.map (fun q => if q.1 = k then (k, v2) else q) = d := by
      conv_rhs => rw [← List.map_id d]
      refine List.map_congr_left ?_
      intro q hq
      simp [hall q hq]
    rw [hmap]
    simp

/-- After a `dict` update on a store with unique keys, exactly one
entry carries the written key, and it holds the written value. -/
theorem dictInsert_filter {κ α : Type} [DecidableEq κ] (d : List (κ × α)) (k : κ) (v : α)
    (hnd : (d.map Prod.fst).Nodup) :
    (dictInsert d k v).filter (fun q => q.1 = k) = [ (k, v)] := by
  induction d with
  | nil => simp [dictInsert]
  | cons q d ih =>
    rw [List.map_cons, List.nodup_cons] at hnd
    obtain ⟨hq, hnd'⟩ := hnd
    by_cases hqk : q.1 = k
    · have hnok : ∀ x ∈ d, ¬ (x.1 = k) := by
        intro x hx hk
        exact hq (by rw [hqk, ← hk]; exact List.mem_map.mpr ⟨x, hx, rfl⟩)
      have hany : ((q :: d).any (fun r => r.1 = k)) = true :=
        List.any_eq_true.mpr ⟨q, by simp, by simp [hqk]⟩
      unfold dictInsert
      rw [if_pos hany, List.map_cons, if_pos hqk]
      have hmap : d.map (fun r => if r.1 = k then (k, v) else r) = d := by
        conv_rhs => rw [← List.map_id d]
        refine List.map_congr_left ?_
        intro x hx
        simp [hnok x hx]
      rw [hmap, List.filter_cons]
      simp only [decide_eq_true_eq, if_pos rfl]
      have : d.filter (fun r => r.1 = k) = [] := by
        refine List.filter_eq_nil_iff.mpr ?_
        intro x hx
        simp [hnok x hx]
      simp [this]
    · have hstep : (q :: d).any (fun r => r.1 = k) = d.any (fun r => r.1 = k) := by
        simp [List.any_cons, hqk]
      by_cases hd : d.any (fun r => r.1 = k) = true
      · unfold dictInsert
        rw [if_pos (by rw [hstep]; exact hd), List.map_cons, if_neg hqk, List.filter_cons]
        have ihv := ih hnd'
        unfold dictInsert at ihv
        rw [if_pos hd] at ihv
        simp only [hqk, decide_eq_true_eq, if_neg hqk]
        simpa [hqk] using ihv
      · unfold dictInsert
        rw [if_neg (by rw [hstep]; exact hd), List.cons_append, List.filter_cons]
        have ihv := ih hnd'
        unfold dictInsert at ihv
        rw [if_neg hd] at ihv
        simp only [hqk, decide_eq_true_eq, if_neg hqk]
        simpa [hqk] using ihv

instance sortKeyTotal {κ α : Type} [LinearOrder κ] :
    IsTotal (κ × α) (fun a b => a.1 ≤ b.1) :=
  ⟨fun a b => le_total a.1 b.1⟩

instance sortKeyTrans {κ α : Type} [LinearOrder κ] :
    IsTrans (κ × α) (fun a b => a.1 ≤ b.1) :=
  ⟨fun _ _ _ h1 h2 => le_trans h1 h2⟩

/-- The forum store file is sorted by key after every save. -/
theorem save_metadata_sorted {κ α : Type} [LinearOrder κ] (d : List (κ × α)) (k : κ)
    (v : α) : List.Sorted (fun a b => a ≤ b) ((save_metadata d k v).map Prod.fst) :=
  List.pairwise_map.mpr
    (List.sorted_insertionSort (fun a b : κ × α => a.1 ≤ b.1) (dictInsert d k v))

/-- Sorting only permutes, so the forum store also keeps exactly one
entry per written key. -/
theorem save_metadata_filter {κ α : Type} [LinearOrder κ] (d : List (κ × α)) (k : κ)
    (v : α) (hnd : (d.map Prod.fst).Nodup) :
    (save_metadata d k v).filter (fun q => q.1 = k) = [ (k, v)] := by
  have hperm : (save_metadata d k v).Perm (dictInsert d k v) :=
    List.perm_insertionSort _ _
  have h2 := hperm.filter (fun q => decide (q.1 = k))
  rw [dictInsert_filter d k v hnd] at h2
  exact List.perm_singleton.mp h2

/-- C4 counterexample: the arXiv store (`save_json`) does not sort: two
saves with keys 2 then 1 leave the keys in insertion order, unsorted. -/
theorem c4_counterexample :
    (save_json (some (Except.ok
        (save_json (none : Option (Except Unit (List (Nat × Nat)))) 2 10))) 1 20).map
        Prod.fst = [ 2, 1] ∧
    ¬ List.Sorted (fun a b : Nat => a ≤ b)
      ((save_json (some (Except.ok
        (save_json (none : Option (Except Unit (List (Nat × Nat)))) 2 10))) 1 20).map
        Prod.fst) :=
  ⟨by decide, by decide⟩

/-- C4 amended: in both stores, saving an existing key replaces the
entry, so writing the same key twice with different values leaves
exactly one entry for that key holding the latest value; the forum
store's keys are sorted after every save, while the arXiv store keeps
insertion order. -/
theorem c4_amended {κ α : Type} [LinearOrder κ] (d : List (κ × α)) (k : κ) (v1 v2 : α)
    (hnd : (d.map Prod.fst).Nodup) :
    dictInsert (dictInsert d k v1) k v2 = dictInsert d k v2 ∧
    (save_metadata d k v2).filter (fun q => q.1 = k) = [ (k, v2)] ∧
    List.Sorted (fun a b => a ≤ b) ((save_metadata d k v2).map Prod.fst) ∧
    (save_json (some (Except.ok d)) k v2).filter (fun q => q.1 = k) = [ (k, v2)] :=
  ⟨dictInsert_dictInsert d k v1 v2, save_metadata_filter d k v2 hnd,
   save_metadata_sorted d k v2, dictInsert_filter d k v2 hnd⟩

theorem c4_amended_witness :
    ((([ ((2 : Nat), (10 : Nat))]).map Prod.fst).Nodup) ∧
    (dictInsert (dictInsert [ ((2 : Nat), (10 : Nat))] 1 5) 1 7 = dictInsert [ (2, 10)] 1 7 ∧
     (save_metadata [ ((2 : Nat), (10 : Nat))] 1 7).filter (fun q => q.1 = 1) = [ (1, 7)] ∧
     List.Sorted (fun a b : Nat => a ≤ b)
       ((save_metadata [ ((2 : Nat), (10 : Nat))] 1 7).map Prod.fst) ∧
     (save_json (some (Except.ok [ ((2 : Nat), (10 : Nat))])) 1 7).filter
       (fun q => q.1 = 1) = [ (1, 7)]) :=
  ⟨by decide, c4_amended [ (2, 10)] 1 5 7 (by decide)⟩

/-- The forum extractor issues exactly one fetch for a URL on its
domain and none for a foreign URL. -/
theorem af_process_url_trace (fetch : List Char → Except Unit Soup) (u : List Char) :
    (af_process_url fetch u).2 =
      if hasSub afDomain u then [u] else [] := by
  by_cases h : hasSub afDomain u
  · rw [if_pos h]
    unfold af_process_url
    rw [if_neg (by simp [h])]
    rcases fetch u with e | s
    · rfl
    · dsimp only
      split <;> rfl
  · rw [if_neg h]
    unfold af_process_url
    rw [if_pos (by simp [h])]

/-- The forum batch loop produces one outcome per URL: no failure
shortens the run. -/
theorem af_batch_length (fetch : List Char → Except Unit Soup) (urls : List (List Char)) :
    (af_batch fetch urls).1.length = urls.length := by
  induction urls with
  | nil => rfl
  | cons u rest ih => simp [af_batch, ih]

/-- The forum batch loop fetches each on-domain URL exactly once (in
order) and foreign URLs never: no retries. -/
theorem af_batch_trace (fetch : List Char → Except Unit Soup) (urls : List (List Char)) :
    (af_batch fetch urls).2 =
      urls.filter (fun u => hasSub afDomain u) := by
  induction urls with
  | nil => rfl
  | cons u rest ih =>
    show (af_process_url fetch u).2 ++ (af_batch fetch rest).2 = _
    rw [af_process_url_trace, ih, List.filter_cons]
    by_cases h : hasSub afDomain u
    · simp [h]
    · simp [h]

/-- One arXiv-metadata `process_url` call issues at most one fetch. -/
theorem am_process_url_single_fetch {α : Type} (fetchA : List Char → Except Unit α)
    (u : List Char) : (am_process_url fetchA u).2.length ≤ 1 := by
  unfold am_process_url
  split
  · simp
  · split
    · simp
    · split <;> simp

/-- If any URL of the batch makes `process_url` raise, the arXiv
metadata batch run ends in that exception. -/
theorem am_batch_error {α : Type} (fetchA : List Char → Except Unit α)
    (urls : List (List Char)) (u : List Char) (hu : u ∈ urls)
    (he : (am_process_url fetchA u).1 = Except.error ()) :
    (am_batch fetchA urls).1 = Except.error () := by
  induction urls with
  | nil => cases hu
  | cons w rest ih =>
    rcases List.mem_cons.mp hu with h1 | h1
    · subst h1
      unfold am_batch
      rcases hp : am_process_url fetchA u with ⟨r, tr⟩
      rw [hp] at he
      simp only at he
      subst he
      rfl
    · unfold am_batch
      rcases hp : am_process_url fetchA w with ⟨r, tr⟩
      rcases r with e | r
      · rcases e; rfl
      · have hrest := ih h1
        simp only
        rw [hrest]
        rfl

/-- C5 counterexample: with a fetch that fails on the first URL, the
arXiv metadata batch (`arxiv_meta.py`) aborts: the exception escapes
`process_url` and the second URL is never processed or fetched, rather
than the item being skipped and the run continuing. -/
theorem c5_counterexample :
    am_batch (fun _ => (Except.error () : Except Unit Unit))
      [ ("https://arxiv.org/abs/1234.5678").toList, ("https://arxiv.org/abs/2222.3333").toList] =
      (Except.error (), [ ("1234.5678").toList]) := by decide

/-- C5 amended: no operation retries a failed fetch (each URL triggers
at most one fetch); the forum extractor's batch catches and logs
failures and continues, producing one outcome per URL; but the arXiv
metadata script re-raises after logging, so its batch run aborts at the
first fetch failure. -/
theorem c5_amended {α : Type} (fetch : List Char → Except Unit Soup)
    (fetchA : List Char → Except Unit α) (urls₁ urls₂ : List (List Char)) :
    (af_batch fetch urls₁).1.length = urls₁.length ∧
    (af_batch fetch urls₁).2 =
      urls₁.filter (fun u => hasSub afDomain u) ∧
    (∀ u : List Char, (af_process_url fetch u).2.length ≤ 1) ∧
    (∀ u : List Char, (am_process_url fetchA u).2.length ≤ 1) ∧
    (∀ u ∈ urls₂, (am_process_url fetchA u).1 = Except.error () →
      (am_batch fetchA urls₂).1 = Except.error ()) := by
  refine ⟨af_batch_length fetch urls₁, af_batch_trace fetch urls₁, ?_,
    fun u => am_process_url_single_fetch fetchA u,
    fun u hu he => am_batch_error fetchA urls₂ u hu he⟩
  intro u
  rw [af_process_url_trace]
  by_cases h : hasSub afDomain u
  · simp [h]
  · simp [h]

theorem c5_amended_witness :
    (af_batch (fun _ => Except.error ())
      [ ("https://www.alignmentforum.org/posts/x").toList]).1.length = 1 ∧
    (am_batch (fun _ => (Except.error () : Except Unit Unit))
      [ ("arxiv:1.2").toList]).1 = Except.error () := by
  have h := c5_amended (fun _ => Except.error ()) (fun _ => (Except.error () : Except Unit Unit))
    [ ("https://www.alignmentforum.org/posts/x").toList] [ ("arxiv:1.2").toList]
  refine ⟨by rw [h.1]; rfl, ?_⟩
  exact h.2.2.2.2 (("arxiv:1.2").toList) (by decide) (by decide)


/-! ## Idempotence analysis of `clean_title`

`clean_title` is not idempotent (rule 3 can fire again on its own
output), but on inputs without newlines and without the substring
`min read` none of the three rules can fire on the cleaned result, so
one application is a fixed point.  The lemmas below establish the
leftmost-match structure of each `re.sub` and that matches survive
appending word-class or whitespace material, which is what the main
theorem needs. -/

theorem mem_of_getLast?_eq {l : List Char} {a : Char} (h : l.getLast? = some a) :
    a ∈ l := by
  induction l with
  | nil => cases h
  | cons c cs ih =>
    cases cs with
    | nil =>
      simp only [List.getLast?_singleton, Option.some.injEq] at h
      simp [h]
    | cons d ds =>
      rw [List.getLast?_cons_cons] at h
      exact List.mem_cons_of_mem c (ih h)

theorem dropWhile_eq_self_of_head {p : Char → Bool} {x : List Char}
    (h : ∀ a, x.head? = some a → p a = false) : x.dropWhile p = x := by
  cases x with
  | nil => rfl
  | cons c cs =>
    rw [List.dropWhile_cons, if_neg]
    simp [h c rfl]

/-- The stripped core together with the trailing whitespace makes up
the left-stripped string. -/
theorem pyStrip_drop_decomp (x : List Char) :
    ∃ post, x.dropWhile isSpaceCh = pyStrip x ++ post ∧
      (∀ c ∈ post, isSpaceCh c = true) := by
  refine ⟨((x.dropWhile isSpaceCh).reverse.takeWhile isSpaceCh).reverse, ?_, ?_⟩
  · conv_lhs => rw [← List.reverse_reverse (x.dropWhile isSpaceCh),
      ← List.takeWhile_append_dropWhile (p := isSpaceCh)
        (l := (x.dropWhile isSpaceCh).reverse),
      List.reverse_append]
    rfl
  · intro c hc
    rw [List.mem_reverse] at hc
    exact List.mem_takeWhile_imp hc

/-- `str.strip()` splits the string into whitespace margins around the
stripped core. -/
theorem pyStrip_decomp (x : List Char) :
    ∃ pre post, x = pre ++ (pyStrip x ++ post) ∧
      (∀ c ∈ pre, isSpaceCh c = true) ∧ (∀ c ∈ post, isSpaceCh c = true) := by
  obtain ⟨post, hpost, hsp⟩ := pyStrip_drop_decomp x
  refine ⟨x.takeWhile isSpaceCh, post, ?_, ?_, hsp⟩
  · conv_lhs => rw [← List.takeWhile_append_dropWhile (p := isSpaceCh) (l := x)]
    rw [hpost]
  · intro c hc
    exact List.mem_takeWhile_imp hc

theorem pyStrip_isInfix (x : List Char) : pyStrip x <:+: x := by
  obtain ⟨pre, post, hx, -, -⟩ := pyStrip_decomp x
  exact ⟨pre, post, by rw [← List.append_assoc] at hx; exact hx.symm⟩

/-- The stripped core starts with a non-whitespace character (if at
all). -/
theorem pyStrip_head_not_space (x : List Char) :
    ∀ a, (pyStrip x).head? = some a → isSpaceCh a = false := by
  intro a ha
  obtain ⟨post, hpost, -⟩ := pyStrip_drop_decomp x
  have hy : (x.dropWhile isSpaceCh).head? = some a := by
    rcases ho : pyStrip x with _ | ⟨c, cs⟩
    · rw [ho] at ha; cases ha
    · rw [ho] at ha
      simp only [List.head?_cons, Option.some.injEq] at ha
      rw [hpost, ho, List.cons_append, List.head?_cons, ha]
  have hnot := List.head?_dropWhile_not isSpaceCh x
  rw [hy] at hnot
  exact hnot

/-- The stripped core ends with a non-whitespace character (if at
all). -/
theorem pyStrip_getLast_not_space (x : List Char) :
    ∀ a, (pyStrip x).getLast? = some a → isSpaceCh a = false := by
  intro a ha
  have horev : (pyStrip x).reverse = (x.dropWhile isSpaceCh).reverse.dropWhile isSpaceCh := by
    unfold pyStrip
    rw [List.reverse_reverse]
  have hrev : (pyStrip x).reverse.head? = some a := by
    rw [List.head?_reverse, ha]
  rw [horev] at hrev
  have hnot := List.head?_dropWhile_not isSpaceCh (x.dropWhile isSpaceCh).reverse
  rw [hrev] at hnot
  exact hnot

theorem pyStrip_idem (x : List Char) : pyStrip (pyStrip x) = pyStrip x := by
  show (((pyStrip x).dropWhile isSpaceCh).reverse.dropWhile isSpaceCh).reverse = pyStrip x
  rw [show (pyStrip x).dropWhile isSpaceCh = pyStrip x from
    dropWhile_eq_self_of_head (pyStrip_head_not_space x)]
  rw [show (pyStrip x).reverse.dropWhile isSpaceCh = (pyStrip x).reverse from
    dropWhile_eq_self_of_head (by
      intro a ha
      rw [List.head?_reverse] at ha
      exact pyStrip_getLast_not_space x a ha)]
  exact List.reverse_reverse _

/-- Leftmost-match structure of `sub2`: either no suffix matches and
the string is untouched, or the string is cut at the leftmost matching
position. -/
theorem sub2_spec (l : List Char) :
    (sub2 l = l ∧ ∀ q, match2 (l.drop q) = false) ∨
    (∃ p, p ≤ l.length ∧ sub2 l = l.take p ∧ match2 (l.drop p) = true ∧
      ∀ q < p, match2 (l.drop q) = false) := by
  induction l with
  | nil =>
    left
    exact ⟨rfl, fun q => by rw [List.drop_nil]; rfl⟩
  | cons c cs ih =>
    by_cases h : match2 (c :: cs) = true
    · right
      exact ⟨0, by omega, by simp [sub2, h], h, fun q hq => absurd hq (Nat.not_lt_zero q)⟩
    · have hb : match2 (c :: cs) = false := by
        rcases hm : match2 (c :: cs) with _ | _
        · rfl
        · exact absurd hm h
      have hs : sub2 (c :: cs) = c :: sub2 cs := by simp [sub2, hb]
      rcases ih with ⟨he, ha⟩ | ⟨p, hp, he, hm, hlt⟩
      · left
        refine ⟨by rw [hs, he], ?_⟩
        intro q
        cases q with
        | zero => exact hb
        | succ q' => exact ha q'
      · right
        refine ⟨p + 1, by simpa using hp, by rw [hs, he]; rfl, hm, ?_⟩
        intro q hq
        cases q with
        | zero => exact hb
        | succ q' => exact hlt q' (by omega)

/-- Leftmost-match structure of `sub1` on newline-free inputs (no
trailing newline can survive, so the cut keeps exactly the prefix). -/
theorem sub1_spec (l : List Char) : '\n' ∉ l →
    (sub1 l = l ∧ ∀ q, match1 (l.drop q) = false) ∨
    (∃ p, p ≤ l.length ∧ sub1 l = l.take p ∧ match1 (l.drop p) = true ∧
      ∀ q < p, match1 (l.drop q) = false) := by
  induction l with
  | nil =>
    intro _
    left
    exact ⟨rfl, fun q => by rw [List.drop_nil]; rfl⟩
  | cons c cs ih =>
    intro hnl
    have hnl' : '\n' ∉ cs := fun hc => hnl (List.mem_cons_of_mem c hc)
    by_cases h : match1 (c :: cs) = true
    · right
      refine ⟨0, by omega, ?_, h, fun q hq => absurd hq (Nat.not_lt_zero q)⟩
      have hlast : ¬ ((c :: cs).getLast? = some '\n') := fun hL => hnl (mem_of_getLast?_eq hL)
      simp [sub1, h, hlast]
    · have hb : match1 (c :: cs) = false := by
        rcases hm : match1 (c :: cs) with _ | _
        · rfl
        · exact absurd hm h
      have hs : sub1 (c :: cs) = c :: sub1 cs := by simp [sub1, hb]
      rcases ih hnl' with ⟨he, ha⟩ | ⟨p, hp, he, hm, hlt⟩
      · left
        refine ⟨by rw [hs, he], ?_⟩
        intro q
        cases q with
        | zero => exact hb
        | succ q' => exact ha q'
      · right
        refine ⟨p + 1, by simpa using hp, by rw [hs, he]; rfl, hm, ?_⟩
        intro q hq
        cases q with
        | zero => exact hb
        | succ q' => exact hlt q' (by omega)

/-- Leftmost-match structure of `sub3` on newline-free inputs. -/
theorem sub3_spec (l : List Char) : '\n' ∉ l →
    (sub3 l = l ∧ ∀ q, match3 (l.drop q) = false) ∨
    (∃ p, p ≤ l.length ∧ sub3 l = l.take p ∧ match3 (l.drop p) = true ∧
      ∀ q < p, match3 (l.drop q) = false) := by
  induction l with
  | nil =>
    intro _
    left
    exact ⟨rfl, fun q => by rw [List.drop_nil]; rfl⟩
  | cons c cs ih =>
    intro hnl
    have hnl' : '\n' ∉ cs := fun hc => hnl (List.mem_cons_of_mem c hc)
    by_cases h : match3 (c :: cs) = true
    · right
      refine ⟨0, by omega, ?_, h, fun q hq => absurd hq (Nat.not_lt_zero q)⟩
      have hlast : ¬ ((c :: cs).getLast? = some '\n') := fun hL => hnl (mem_of_getLast?_eq hL)
      simp [sub3, h, hlast]
    · have hb : match3 (c :: cs) = false := by
        rcases hm : match3 (c :: cs) with _ | _
        · rfl
        · exact absurd hm h
      have hs : sub3 (c :: cs) = c :: sub3 cs := by simp [sub3, hb]
      rcases ih hnl' with ⟨he, ha⟩ | ⟨p, hp, he, hm, hlt⟩
      · left
        refine ⟨by rw [hs, he], ?_⟩
        intro q
        cases q with
        | zero => exact hb
        | succ q' => exact ha q'
      · right
        refine ⟨p + 1, by simpa using hp, by rw [hs, he]; rfl, hm, ?_⟩
        intro q hq
        cases q with
        | zero => exact hb
        | succ q' => exact hlt q' (by omega)

/-- If no suffix matches, `sub1` leaves the string unchanged. -/
theorem sub1_eq_self (l : List Char) (h : ∀ q, match1 (l.drop q) = false) :
    sub1 l = l := by
  induction l with
  | nil => rfl
  | cons c cs ih =>
    have h0 : match1 (c :: cs) = false := h 0
    rw [show sub1 (c :: cs) = c :: sub1 cs by simp [sub1, h0]]
    rw [ih (fun q => h (q + 1))]

/-- If no suffix matches, `sub2` leaves the string unchanged. -/
theorem sub2_eq_self (l : List Char) (h : ∀ q, match2 (l.drop q) = false) :
    sub2 l = l := by
  induction l with
  | nil => rfl
  | cons c cs ih =>
    have h0 : match2 (c :: cs) = false := h 0
    rw [show sub2 (c :: cs) = c :: sub2 cs by simp [sub2, h0]]
    rw [ih (fun q => h (q + 1))]

/-- If no suffix matches, `sub3` leaves the string unchanged. -/
theorem sub3_eq_self (l : List Char) (h : ∀ q, match3 (l.drop q) = false) :
    sub3 l = l := by
  induction l with
  | nil => rfl
  | cons c cs ih =>
    have h0 : match3 (c :: cs) = false := h 0
    rw [show sub3 (c :: cs) = c :: sub3 cs by simp [sub3, h0]]
    rw [ih (fun q => h (q + 1))]

/-- A continuation matcher is append-monotone when a match of a
newline-free suffix survives appending newline-free material (the
pattern tails here all end in `.*$`, which absorbs anything without
newlines). -/
def KMono (k : List Char → Bool) : Prop :=
  ∀ x ext : List Char, '\n' ∉ x → '\n' ∉ ext → k x = true → k (x ++ ext) = true

theorem dotStarDollar_of_noNL (x : List Char) : '\n' ∉ x → dotStarDollar x = true := by
  induction x with
  | nil => intro _; rfl
  | cons c cs ih =>
    intro h
    have hc : c ≠ '\n' := fun hc => h (by simp [hc])
    have hcs : '\n' ∉ cs := fun hm => h (List.mem_cons_of_mem c hm)
    show starK notNL dollarK (c :: cs) = true
    simp only [starK, Bool.or_eq_true, Bool.and_eq_true]
    right
    exact ⟨by simp [notNL, hc], ih hcs⟩

theorem kmono_dotStarDollar : KMono dotStarDollar := by
  intro x ext hx hext _
  apply dotStarDollar_of_noNL
  intro hm
  rcases List.mem_append.mp hm with hm | hm
  · exact hx hm
  · exact hext hm

theorem kmono_starK (p : Char → Bool) (k : List Char → Bool) (hk : KMono k) :
    KMono (starK p k) := by
  intro x
  induction x with
  | nil =>
    intro ext _ hext h
    have hke : k ext = true := by
      have h0 : k [] = true := by simpa [starK] using h
      simpa using hk [] ext (by simp) hext h0
    cases ext with
    | nil => simpa [starK] using hke
    | cons e es =>
      show starK p k (e :: es) = true
      simp [starK, hke]
  | cons c cs ih =>
    intro ext hx hext h
    have hcs : '\n' ∉ cs := fun hm => hx (List.mem_cons_of_mem c hm)
    rw [List.cons_append]
    simp only [starK, Bool.or_eq_true, Bool.and_eq_true] at h ⊢
    rcases h with h | ⟨hp, hs⟩
    · left
      exact hk (c :: cs) ext hx hext h
    · right
      exact ⟨hp, ih ext hcs hext hs⟩

theorem kmono_plusK (p : Char → Bool) (k : List Char → Bool) (hk : KMono k) :
    KMono (plusK p k) := by
  intro x ext hx hext h
  cases x with
  | nil => simp [plusK] at h
  | cons c cs =>
    rw [List.cons_append]
    simp only [plusK, Bool.and_eq_true] at h ⊢
    exact ⟨h.1, kmono_starK p k hk cs ext
      (fun hm => hx (List.mem_cons_of_mem c hm)) hext h.2⟩

theorem kmono_litK (w : List Char) (k : List Char → Bool) (hk : KMono k) :
    KMono (litK w k) := by
  induction w with
  | nil =>
    intro x ext hx hext h
    have h' : k x = true := by simpa [litK] using h
    simpa [litK] using hk x ext hx hext h'
  | cons a ws ih =>
    intro x ext hx hext h
    cases x with
    | nil => simp [litK] at h
    | cons c cs =>
      rw [List.cons_append]
      simp only [litK, Bool.and_eq_true] at h ⊢
      exact ⟨h.1, ih cs ext (fun hm => hx (List.mem_cons_of_mem c hm)) hext h.2⟩

theorem kmono_rep1or2 (p : Char → Bool) (k : List Char → Bool) (hk : KMono k) :
    KMono (rep1or2 p k) := by
  intro x ext hx hext h
  match x, h with
  | [c], h =>
    simp only [rep1or2, Bool.and_eq_true] at h
    cases ext with
    | nil => simpa [rep1or2] using h
    | cons e es =>
      show rep1or2 p k (c :: e :: es) = true
      simp only [rep1or2, Bool.and_eq_true, Bool.or_eq_true]
      refine ⟨h.1, Or.inr ?_⟩
      simpa using hk [] (e :: es) (by simp) hext h.2
  | c :: d :: cs, h =>
    show rep1or2 p k (c :: d :: (cs ++ ext)) = true
    simp only [rep1or2, Bool.and_eq_true, Bool.or_eq_true] at h ⊢
    have hcs : '\n' ∉ cs := fun hm => hx (by simp [hm])
    have hdcs : '\n' ∉ d :: cs := fun hm => hx (by simp at hm; simp [hm])
    rcases h with ⟨hp, ⟨hpd, hkcs⟩ | hkdcs⟩
    · exact ⟨hp, Or.inl ⟨hpd, hk cs ext hcs hext hkcs⟩⟩
    · exact ⟨hp, Or.inr (hk (d :: cs) ext hdcs hext hkdcs)⟩

theorem kmono_ordOpt (k : List Char → Bool) (hk : KMono k) : KMono (ordOpt k) := by
  intro x ext hx hext h
  simp only [ordOpt, Bool.or_eq_true] at h ⊢
  rcases h with (((h | h) | h) | h) | h
  · exact Or.inl (Or.inl (Or.inl (Or.inl (kmono_litK _ k hk x ext hx hext h))))
  · exact Or.inl (Or.inl (Or.inl (Or.inr (kmono_litK _ k hk x ext hx hext h))))
  · exact Or.inl (Or.inl (Or.inr (kmono_litK _ k hk x ext hx hext h)))
  · exact Or.inl (Or.inr (kmono_litK _ k hk x ext hx hext h))
  · exact Or.inr (hk x ext hx hext h)

theorem kmono_capWordK (k : List Char → Bool) (hk : KMono k) : KMono (capWordK k) := by
  intro x ext hx hext h
  cases x with
  | nil => simp [capWordK] at h
  | cons c cs =>
    rw [List.cons_append]
    simp only [capWordK, Bool.and_eq_true] at h ⊢
    exact ⟨h.1, kmono_plusK Char.isLower k hk cs ext
      (fun hm => hx (List.mem_cons_of_mem c hm)) hext h.2⟩

theorem kmono_rep4 (p : Char → Bool) (k : List Char → Bool) (hk : KMono k) :
    KMono (rep4 p k) := by
  intro x ext hx hext h
  match x, h with
  | a :: b :: c :: d :: rest, h =>
    show rep4 p k (a :: b :: c :: d :: (rest ++ ext)) = true
    simp only [rep4, Bool.and_eq_true] at h ⊢
    have hrest : '\n' ∉ rest := fun hm => hx (by simp [hm])
    obtain ⟨⟨⟨⟨h1, h2⟩, h3⟩, h4⟩, h5⟩ := h
    exact ⟨⟨⟨⟨h1, h2⟩, h3⟩, h4⟩, hk rest ext hrest hext h5⟩

/-- A rule-1 match of a newline-free suffix survives appending
newline-free material. -/
theorem match1_kmono : KMono match1 :=
  kmono_litK _ _ (kmono_plusK _ _ (kmono_plusK _ _ (kmono_rep1or2 _ _ (kmono_ordOpt _
    (kmono_plusK _ _ (kmono_capWordK _ (kmono_plusK _ _ (kmono_rep4 _ _
      kmono_dotStarDollar))))))))

theorem match1_ne_nil {x : List Char} (h : match1 x = true) : x ≠ [] := by
  intro he
  subst he
  exact absurd h (by decide)

theorem match2_ne_nil {x : List Char} (h : match2 x = true) : x ≠ [] := by
  intro he
  subst he
  exact absurd h (by decide)

theorem isWordish_of_space {c : Char} (h : isSpaceCh c = true) : isWordish c = true := by
  simp [isWordish, h]

/-- Everything a rule-2 match covers lies in `[\w\s,]`. -/
theorem match2_all_wordish {x : List Char} (h : match2 x = true) :
    ∀ a ∈ x, isWordish a = true := by
  match x, h with
  | b :: y :: c :: d :: rest, h =>
    simp only [match2, Bool.and_eq_true, beq_iff_eq, List.all_eq_true] at h
    obtain ⟨⟨⟨⟨hb, hy⟩, hc⟩, hd⟩, hrest⟩ := h
    intro a ha
    simp only [List.mem_cons] at ha
    rcases ha with rfl | rfl | rfl | rfl | ha
    · rw [hb]; decide
    · rw [hy]; decide
    · exact isWordish_of_space hc
    · exact hd
    · exact hrest a ha

/-- A rule-2 match of a suffix survives appending `[\w\s,]` material. -/
theorem match2_append {x ext : List Char} (h : match2 x = true)
    (hext : ∀ a ∈ ext, isWordish a = true) : match2 (x ++ ext) = true := by
  match x, h with
  | b :: y :: c :: d :: rest, h =>
    show match2 (b :: y :: c :: d :: (rest ++ ext)) = true
    simp only [match2, Bool.and_eq_true, List.all_eq_true] at h ⊢
    obtain ⟨⟨⟨⟨hb, hy⟩, hc⟩, hd⟩, hrest⟩ := h
    refine ⟨⟨⟨⟨hb, hy⟩, hc⟩, hd⟩, ?_⟩
    intro a ha
    rcases List.mem_append.mp ha with ha | ha
    · exact hrest a ha
    · exact hext a ha

/-- A rule-3 match contains the literal `min read`. -/
theorem match3_minread {x : List Char} (h : match3 x = true) : minread <:+: x := by
  unfold match3 at h
  simp only [Bool.and_eq_true] at h
  obtain ⟨⟨-, hpre⟩, -⟩ := h
  have h1 : minread <+: (x.dropWhile Char.isDigit).dropWhile isSpaceCh :=
    List.isPrefixOf_iff_prefix.mp hpre
  have h2 : (x.dropWhile Char.isDigit).dropWhile isSpaceCh <:+ x :=
    (List.dropWhile_suffix isSpaceCh).trans (List.dropWhile_suffix Char.isDigit)
  exact h1.isInfix.trans h2.isInfix

/-- Dropping within a prefix: positions inside the prefix see the same
text plus the trailing remainder. -/
theorem drop_within_pref {x y : List Char} (h : x <+: y) {q : Nat} (hq : q ≤ x.length) :
    y.drop q = x.drop q ++ y.drop x.length := by
  obtain ⟨s, rfl⟩ := h
  rw [List.drop_append_of_le_length hq, List.drop_left]

/-- On newline-free input, rule 1 deletes a suffix. -/
theorem sub1_pref (l : List Char) (hnl : '\n' ∉ l) : sub1 l <+: l := by
  rcases sub1_spec l hnl with ⟨he, -⟩ | ⟨p, -, he, -, -⟩
  · rw [he]
  · rw [he]
    exact List.take_prefix p l

/-- Rule 2 always deletes a suffix. -/
theorem sub2_pref (l : List Char) : sub2 l <+: l := by
  rcases sub2_spec l with ⟨he, -⟩ | ⟨p, -, he, -, -⟩
  · rw [he]
  · rw [he]
    exact List.take_prefix p l

/-- C2 counterexample: `clean_title` is not idempotent.  On
`Title 3 min read 4 min read` the first application deletes only the
rightmost `min read` suffix (rule 3's `$`-anchored pattern has exactly
one match), and a second application deletes another. -/
theorem c2_counterexample :
    clean_title (clean_title (("Title 3 min read 4 min read").toList)) ≠
      clean_title (("Title 3 min read 4 min read").toList) := by decide

/-- C2 amended: `clean_title` is idempotent on every input that
contains no newline and no occurrence of the substring `min read`: on
such inputs none of the three rules can match the cleaned output
again.  (Without these restrictions a second application can strip
further, as the counterexample shows.) -/
theorem c2_amended_idempotent (l : List Char) (hnl : '\n' ∉ l)
    (hmr : ¬ minread <:+: l) :
    clean_title (clean_title l) = clean_title l := by
  have ht1p : sub1 l <+: l := sub1_pref l hnl
  have ht2p : sub2 (sub1 l) <+: sub1 l := sub2_pref (sub1 l)
  set t1 := sub1 l with ht1def
  set t2 := sub2 t1 with ht2def
  have hnl1 : '\n' ∉ t1 := fun hm => hnl (ht1p.subset hm)
  have hnl2 : '\n' ∉ t2 := fun hm => hnl1 (ht2p.subset hm)
  have hinf2 : t2 <:+: l := (ht2p.isInfix).trans ht1p.isInfix
  have hmr2 : ¬ minread <:+: t2 := fun hi => hmr (hi.trans hinf2)
  have hsub3t2 : sub3 t2 = t2 := by
    apply sub3_eq_self
    intro q
    rcases hq : match3 (t2.drop q) with _ | _
    · rfl
    · exact absurd (hmr2 ((match3_minread hq).trans
        (List.IsSuffix.isInfix (List.drop_suffix q t2)))) (fun h => h)
  obtain ⟨pre, post, hdec, hpresp, hpostsp⟩ := pyStrip_decomp t2
  set o := pyStrip t2 with hodef
  have hct : clean_title l = o := by
    show pyStrip (sub3 (sub2 (sub1 l))) = o
    rw [← ht1def, ← ht2def, hsub3t2]
  have hinfo : o <:+: l := (pyStrip_isInfix t2).trans hinf2
  have hnlo : '\n' ∉ o := fun hm => hnl (hinfo.subset hm)
  have hnlpost : '\n' ∉ post := by
    intro hm
    apply hnl2
    rw [hdec]
    simp [hm]
  have hdrop : ∀ q, q ≤ o.length → t2.drop (pre.length + q) = o.drop q ++ post := by
    intro q hq
    rw [hdec, ← List.drop_drop, List.drop_left]
    exact List.drop_append_of_le_length hq
  have hs2w : ∀ a ∈ t1.drop t2.length, isWordish a = true := by
    rcases sub2_spec t1 with ⟨he, -⟩ | ⟨p, hp, he, hm, -⟩
    · rw [← ht2def] at he
      rw [he, List.drop_length]
      intro a ha
      cases ha
    · rw [← ht2def] at he
      have hlen : t2.length = p := by
        rw [he, List.length_take]
        omega
      rw [hlen]
      exact match2_all_wordish hm
  have hno2 : ∀ q, match2 (o.drop q) = false := by
    intro q
    rcases hq2 : match2 (o.drop q) with _ | _
    · rfl
    · exfalso
      have hne := match2_ne_nil hq2
      have hqlen : q < o.length := by
        rcases Nat.lt_or_ge q o.length with h | h
        · exact h
        · exact absurd (List.drop_eq_nil_of_le h) hne
      have h1 : match2 (t2.drop (pre.length + q)) = true := by
        rw [hdrop q hqlen.le]
        exact match2_append hq2 (fun a ha => isWordish_of_space (hpostsp a ha))
      have hq2len : pre.length + q < t2.length := by
        rcases Nat.lt_or_ge (pre.length + q) t2.length with h | h
        · exact h
        · rw [List.drop_eq_nil_of_le h] at h1
          exact absurd rfl (match2_ne_nil h1)
      have h2 : match2 (t1.drop (pre.length + q)) = true := by
        rw [drop_within_pref ht2p hq2len.le]
        exact match2_append h1 hs2w
      rcases sub2_spec t1 with ⟨-, hall⟩ | ⟨p, hp, he, -, hlt⟩
      · rw [hall (pre.length + q)] at h2
        exact Bool.noConfusion h2
      · rw [← ht2def] at he
        have hplen : t2.length ≤ p := by
          rw [he, List.length_take]
          omega
        rw [hlt (pre.length + q) (by omega)] at h2
        exact Bool.noConfusion h2
  have hno1 : ∀ q, match1 (o.drop q) = false := by
    intro q
    rcases hq1 : match1 (o.drop q) with _ | _
    · rfl
    · exfalso
      have hne := match1_ne_nil hq1
      have hqlen : q < o.length := by
        rcases Nat.lt_or_ge q o.length with h | h
        · exact h
        · exact absurd (List.drop_eq_nil_of_le h) hne
      have hnodrop : '\n' ∉ o.drop q := fun hm => hnlo (List.drop_subset q o hm)
      have h1 : match1 (t2.drop (pre.length + q)) = true := by
        rw [hdrop q hqlen.le]
        exact match1_kmono _ post hnodrop hnlpost hq1
      have hq2len : pre.length + q < t2.length := by
        rcases Nat.lt_or_ge (pre.length + q) t2.length with h | h
        · exact h
        · rw [List.drop_eq_nil_of_le h] at h1
          exact absurd rfl (match1_ne_nil h1)
      have h2 : match1 (t1.drop (pre.length + q)) = true := by
        rw [drop_within_pref ht2p hq2len.le]
        refine match1_kmono _ _ ?_ ?_ h1
        · exact fun hm => hnl2 (List.drop_subset _ t2 hm)
        · exact fun hm => hnl1 (List.drop_subset _ t1 hm)
      have hq3len : pre.length + q < t1.length := lt_of_lt_of_le hq2len ht2p.length_le
      have h3 : match1 (l.drop (pre.length + q)) = true := by
        rw [drop_within_pref ht1p hq3len.le]
        refine match1_kmono _ _ ?_ ?_ h2
        · exact fun hm => hnl1 (List.drop_subset _ t1 hm)
        · exact fun hm => hnl (List.drop_subset _ l hm)
      rcases sub1_spec l hnl with ⟨-, hall⟩ | ⟨p, hp, he, -, hlt⟩
      · rw [hall (pre.length + q)] at h3
        exact Bool.noConfusion h3
      · rw [← ht1def] at he
        have hplen : t1.length ≤ p := by
          rw [he, List.length_take]
          omega
        rw [hlt (pre.length + q) (by omega)] at h3
        exact Bool.noConfusion h3
  have hno3 : ∀ q, match3 (o.drop q) = false := by
    intro q
    rcases hq3 : match3 (o.drop q) with _ | _
    · rfl
    · exact absurd (hmr ((match3_minread hq3).trans
        ((List.IsSuffix.isInfix (List.drop_suffix q o)).trans hinfo))) (fun h => h)
  have hfix : clean_title o = o := by
    show pyStrip (sub3 (sub2 (sub1 o))) = o
    rw [sub1_eq_self o hno1, sub2_eq_self o hno2, sub3_eq_self o hno3, hodef]
    exact pyStrip_idem t2
  rw [hct]
  exact hfix

theorem c2_amended_witness :
    ('\n' ∉ (("My Post by Jane Doe 22nd Jan 2024").toList)) ∧
    (¬ minread <:+: (("My Post by Jane Doe 22nd Jan 2024").toList)) ∧
    clean_title (clean_title (("My Post by Jane Doe 22nd Jan 2024").toList)) =
      clean_title (("My Post by Jane Doe 22nd Jan 2024").toList) :=
  ⟨by decide, by decide, c2_amended_idempotent _ (by decide) (by decide)⟩
